import Mathlib

/-!
# Verification of the ParaDiag all-at-once operators (scalar Dahlquist ODE)

This file embeds the matrix-free linear operators of the ParaDiag notebook
(`paradiag/dahlquist/paradiag.ipynb`) in Lean over exact complex arithmetic.
The notebook's operator classes (`ToeplitzLinearOperator`,
`CirculantLinearOperator`, `AlphaCirculantLinearOperator`) leave their
`_matvec` bodies and construction validation as fill-in blanks, so those
bodies are modelled from the specification and then checked against the
mathematical statements the specification makes about them: a circulant
apply built from a forward/inverse transform pair equals the circulant
matrix-vector product, the Toeplitz apply via circulant embedding equals the
direct Toeplitz product, the preconditioner inverse-apply inverts the apply,
and the alpha-circulant operator reduces to the circulant one at alpha = 1.
Floating-point tolerances in the specification become exact equalities here.
-/

open Finset

noncomputable section

namespace ParaDiag

/-- The forward transform root exp(-2*pi*i/n), matching the convention of the
notebook's forward fast transform (scipy `fft`). -/
def dftRoot (n : ℕ) : ℂ := Complex.exp (-(2 * Real.pi * Complex.I) / n)

/-- Modelled from the spec: the Fast Transform primitive's forward transform
(missing from the notebook, which delegates to scipy `fft`):
`Forward n v k = sum_j v j * exp(-2*pi*i/n)^(j*k)`. -/
def Forward (n : ℕ) (v : ℕ → ℂ) : ℕ → ℂ :=
  fun k => ∑ j ∈ Finset.range n, v j * dftRoot n ^ (j * k)

/-- Modelled from the spec: the Fast Transform primitive's inverse transform
(missing from the notebook, which delegates to scipy `ifft`):
`Inverse n v k = (1/n) * sum_j v j * exp(+2*pi*i/n)^(j*k)`. -/
def Inverse (n : ℕ) (v : ℕ → ℂ) : ℕ → ℂ :=
  fun k => (n : ℂ)⁻¹ * ∑ j ∈ Finset.range n, v j * ((dftRoot n)⁻¹) ^ (j * k)

/-- The direct circulant matrix-vector product (also the cyclic convolution):
entry `i` is `sum_j col[(i-j) mod n] * v j`; for `i, j < n` the index
`(n + i - j) % n` is exactly the mathematical `(i - j) mod n`. -/
def cconv (n : ℕ) (a b : ℕ → ℂ) : ℕ → ℂ :=
  fun i => ∑ j ∈ Finset.range n, a ((n + i - j) % n) * b j

/-- Entry `(i, j)` of the Toeplitz matrix described by `(col, row)`:
`col (i-j)` on and below the diagonal, `row (j-i)` above it. -/
def toeplitzEntry (col row : ℕ → ℂ) (i j : ℕ) : ℂ :=
  if j ≤ i then col (i - j) else row (j - i)

/-- The direct O(n^2) Toeplitz matrix-vector product. -/
def toeplitzDirect (n : ℕ) (col row v : ℕ → ℂ) : ℕ → ℂ :=
  fun i => ∑ j ∈ Finset.range n, toeplitzEntry col row i j * v j

/-- First column of the circulant matrix of size `2n-1` into which the
`n × n` Toeplitz matrix `(col, row)` is embedded: the column, then the
reversed tail of the row. -/
def embedCol (n : ℕ) (col row : ℕ → ℂ) : ℕ → ℂ :=
  fun k => if k < n then col k else if k < 2 * n - 1 then row (2 * n - 1 - k) else 0

/-- Zero-padding of a length-`n` vector to the embedding size. -/
def padVec (n : ℕ) (v : ℕ → ℂ) : ℕ → ℂ :=
  fun j => if j < n then v j else 0

/-- Modelled from the spec: `CirculantLinearOperator._matvec` (left blank in
the notebook): eigenvalues `D = Forward col`, then
`apply v = Inverse (D ⊙ Forward v)`. -/
def circApply (n : ℕ) (col v : ℕ → ℂ) : ℕ → ℂ :=
  fun i => Inverse n (fun k => Forward n col k * Forward n v k) i

/-- Modelled from the spec: the circulant preconditioner step `inverse_apply`
(left blank in the notebook): `Inverse (Forward v ⊘ D)`. -/
def circInverseApply (n : ℕ) (col v : ℕ → ℂ) : ℕ → ℂ :=
  fun i => Inverse n (fun k => Forward n v k / Forward n col k) i

/-- Modelled from the spec: `ToeplitzLinearOperator._matvec` (left blank in
the notebook): embed the Toeplitz matrix into a circulant matrix of size
`2n-1`, zero-pad the operand, and multiply via the forward/inverse
transform pair. -/
def toeplitzApply (n : ℕ) (col row v : ℕ → ℂ) : ℕ → ℂ :=
  fun i => circApply (2 * n - 1) (embedCol n col row) (padVec n v) i

/-- The diagonal scaling sequence of the alpha-circulant operator:
`Gamma[k] = alpha^(k/n)` for `k = 0 .. n-1` (zero-based convention). -/
def Gamma (n : ℕ) (alpha : ℝ) : ℕ → ℂ :=
  fun k => ((alpha ^ ((k : ℝ) / (n : ℝ)) : ℝ) : ℂ)

/-- Modelled from the spec: the cached alpha-circulant eigenvalues
`D = Forward (Gamma ⊙ col)`. -/
def alphaEigs (n : ℕ) (alpha : ℝ) (col : ℕ → ℂ) : ℕ → ℂ :=
  Forward n (fun j => Gamma n alpha j * col j)

/-- Modelled from the spec: `AlphaCirculantLinearOperator._matvec` (left
blank in the notebook): scale by `Gamma`, forward-transform, multiply by the
cached eigenvalues, inverse-transform, un-scale by `Gamma⁻¹`. -/
def alphaCircApply (n : ℕ) (alpha : ℝ) (col v : ℕ → ℂ) : ℕ → ℂ :=
  fun i => (Gamma n alpha i)⁻¹ *
    Inverse n (fun k => alphaEigs n alpha col k * Forward n (fun j => Gamma n alpha j * v j) k) i

/-- Modelled from the spec: the alpha-circulant preconditioner step
`inverse_apply`: the same pipeline as `alphaCircApply` with division by the
cached eigenvalues in place of multiplication. -/
def alphaCircInverseApply (n : ℕ) (alpha : ℝ) (col v : ℕ → ℂ) : ℕ → ℂ :=
  fun i => (Gamma n alpha i)⁻¹ *
    Inverse n (fun k => Forward n (fun j => Gamma n alpha j * v j) k / alphaEigs n alpha col k) i

/-- Error kinds of the operator layer, as named by the specification. -/
inductive OpError where
  | constructionError
  | dimensionMismatch
  | singularPreconditioner
deriving DecidableEq

/-- The Toeplitz operator record: the first column and the top row of the
matrix it represents (element type is fixed to ℂ). -/
structure ToeplitzLinearOperator where
  col : List ℂ
  row : List ℂ

/-- The declared shape of a Toeplitz operator, as set by `__init__`:
`(len col, len row)`. -/
def ToeplitzLinearOperator.shape (T : ToeplitzLinearOperator) : ℕ × ℕ :=
  (T.col.length, T.row.length)

open scoped Classical in
/-- Modelled from the spec: validated construction of the Toeplitz operator
(the notebook's `__init__` is a fill-in blank): requires
`len col = len row` and `col[0] = row[0]`, else `ConstructionError` and no
operator object is created. -/
def mkToeplitz (col row : List ℂ) : Except OpError ToeplitzLinearOperator :=
  if col.length = row.length ∧ col.headD 0 = row.headD 0 then
    .ok ⟨col, row⟩
  else .error .constructionError

open scoped Classical in
/-- Modelled from the spec: the Toeplitz `apply` entry point with its
dimension check: `DimensionMismatch` when the operand length disagrees with
the declared shape, otherwise the matrix-vector product. -/
def ToeplitzLinearOperator.matvec (T : ToeplitzLinearOperator) (v : List ℂ) :
    Except OpError (List ℂ) :=
  if v.length = T.col.length then
    .ok ((List.range T.col.length).map
      (toeplitzApply T.col.length (fun i => T.col.getD i 0) (fun i => T.row.getD i 0)
        (fun i => v.getD i 0)))
  else .error .dimensionMismatch

/-- The circulant operator record: the first column of the circulant matrix. -/
structure CirculantLinearOperator where
  col : List ℂ

/-- The cached eigenvalues of a circulant operator: the forward transform of
its first column. -/
def CirculantLinearOperator.eigs (C : CirculantLinearOperator) : ℕ → ℂ :=
  Forward C.col.length (fun j => C.col.getD j 0)

open scoped Classical in
/-- Modelled from the spec: the circulant preconditioner step with its error
checks: `DimensionMismatch` on a wrong-length operand, and
`SingularPreconditioner` when some cached eigenvalue is zero (division in
frequency space would be undefined), otherwise the diagonal solve. -/
def CirculantLinearOperator.inverseApply (C : CirculantLinearOperator) (v : List ℂ) :
    Except OpError (List ℂ) :=
  if v.length ≠ C.col.length then .error .dimensionMismatch
  else if ∃ k < C.col.length, C.eigs k = 0 then .error .singularPreconditioner
  else .ok ((List.range C.col.length).map
    (circInverseApply C.col.length (fun j => C.col.getD j 0) (fun j => v.getD j 0)))

/-- The alpha-circulant operator record. -/
structure AlphaCirculantLinearOperator where
  col : List ℂ
  alpha : ℝ

open scoped Classical in
/-- Modelled from the spec: validated construction of the alpha-circulant
operator: requires `alpha ∈ (0, 1]`, else `ConstructionError`. -/
def mkAlphaCirculant (col : List ℂ) (alpha : ℝ) :
    Except OpError AlphaCirculantLinearOperator :=
  if 0 < alpha ∧ alpha ≤ 1 then .ok ⟨col, alpha⟩ else .error .constructionError

/-- `gmres_callback` from the notebook: each invocation increments the
global iteration counter `niterations` by exactly one (the printing it also
does carries no state). The counter value is threaded explicitly. -/
def gmres_callback (niterations : ℕ) : ℕ := niterations + 1

theorem dftRoot_eq_inv (n : ℕ) :
    dftRoot n = (Complex.exp (2 * Real.pi * Complex.I / n))⁻¹ := by
  rw [dftRoot, ← Complex.exp_neg, neg_div]

theorem dftRoot_isPrimitiveRoot {n : ℕ} (hn : n ≠ 0) :
    IsPrimitiveRoot (dftRoot n) n := by
  rw [dftRoot_eq_inv]
  exact (Complex.isPrimitiveRoot_exp n hn).inv

theorem dftRoot_ne_zero (n : ℕ) : dftRoot n ≠ 0 := Complex.exp_ne_zero _

theorem dftRoot_pow_n {n : ℕ} (hn : n ≠ 0) : dftRoot n ^ n = 1 :=
  (dftRoot_isPrimitiveRoot hn).pow_eq_one

theorem dftRoot_pow_mod {n : ℕ} (hn : n ≠ 0) (x : ℕ) :
    dftRoot n ^ (x % n) = dftRoot n ^ x := by
  conv_rhs => rw [← Nat.div_add_mod x n]
  rw [pow_add, pow_mul, dftRoot_pow_n hn, one_pow, one_mul]

theorem dftRoot_pow_mod_mul {n : ℕ} (hn : n ≠ 0) (x k : ℕ) :
    dftRoot n ^ (x % n * k) = dftRoot n ^ (x * k) := by
  rw [pow_mul, pow_mul, dftRoot_pow_mod hn]

theorem geom_sum_dftRoot {n : ℕ} (hn : n ≠ 0) {i k : ℕ} (hi : i < n) (hk : k < n) :
    ∑ j ∈ Finset.range n, (dftRoot n ^ i / dftRoot n ^ k) ^ j
      = if i = k then (n : ℂ) else 0 := by
  by_cases h : i = k
  · subst h
    rw [if_pos rfl, div_self (pow_ne_zero _ (dftRoot_ne_zero n))]
    simp
  · rw [if_neg h]
    have hμ1 : dftRoot n ^ i / dftRoot n ^ k ≠ 1 := by
      intro h1
      exact h ((dftRoot_isPrimitiveRoot hn).pow_inj hi hk
        ((div_eq_one_iff_eq (pow_ne_zero _ (dftRoot_ne_zero n))).mp h1))
    have hμn : (dftRoot n ^ i / dftRoot n ^ k) ^ n = 1 := by
      rw [div_pow, ← pow_mul, ← pow_mul, mul_comm i n, mul_comm k n, pow_mul, pow_mul,
        dftRoot_pow_n hn, one_pow, one_pow]
      exact div_self one_ne_zero
    rw [geom_sum_eq hμ1, hμn, sub_self, zero_div]

theorem Inverse_Forward {n : ℕ} (hn : n ≠ 0) (v : ℕ → ℂ) {k : ℕ} (hk : k < n) :
    Inverse n (Forward n v) k = v k := by
  have hNC : (n : ℂ) ≠ 0 := Nat.cast_ne_zero.mpr hn
  simp only [Inverse, Forward]
  have key : ∑ j ∈ Finset.range n,
      (∑ i ∈ Finset.range n, v i * dftRoot n ^ (i * j)) * ((dftRoot n)⁻¹) ^ (j * k)
      = (n : ℂ) * v k := by
    calc ∑ j ∈ Finset.range n,
        (∑ i ∈ Finset.range n, v i * dftRoot n ^ (i * j)) * ((dftRoot n)⁻¹) ^ (j * k)
        = ∑ j ∈ Finset.range n, ∑ i ∈ Finset.range n,
            v i * (dftRoot n ^ i / dftRoot n ^ k) ^ j := by
          refine Finset.sum_congr rfl fun j _ => ?_
          rw [Finset.sum_mul]
          refine Finset.sum_congr rfl fun i _ => ?_
          rw [mul_assoc]
          congr 1
          rw [inv_pow, ← div_eq_mul_inv, div_pow, ← pow_mul, ← pow_mul, mul_comm j k]
      _ = ∑ i ∈ Finset.range n, ∑ j ∈ Finset.range n,
            v i * (dftRoot n ^ i / dftRoot n ^ k) ^ j := Finset.sum_comm
      _ = ∑ i ∈ Finset.range n, v i * (if i = k then (n : ℂ) else 0) := by
          refine Finset.sum_congr rfl fun i hi => ?_
          rw [← Finset.mul_sum, geom_sum_dftRoot hn (Finset.mem_range.mp hi) hk]
      _ = (n : ℂ) * v k := by
          simp only [mul_ite, mul_zero]
          rw [Finset.sum_ite_eq' (Finset.range n) k fun i => v i * (n : ℂ)]
          rw [if_pos (Finset.mem_range.mpr hk), mul_comm]
  rw [key, inv_mul_cancel_left₀ hNC]

theorem Forward_Inverse {n : ℕ} (hn : n ≠ 0) (v : ℕ → ℂ) {k : ℕ} (hk : k < n) :
    Forward n (Inverse n v) k = v k := by
  have hNC : (n : ℂ) ≠ 0 := Nat.cast_ne_zero.mpr hn
  simp only [Forward, Inverse]
  calc ∑ j ∈ Finset.range n,
      ((n : ℂ)⁻¹ * ∑ i ∈ Finset.range n, v i * ((dftRoot n)⁻¹) ^ (i * j)) * dftRoot n ^ (j * k)
      = (n : ℂ)⁻¹ * ∑ j ∈ Finset.range n, ∑ i ∈ Finset.range n,
          v i * (dftRoot n ^ k / dftRoot n ^ i) ^ j := by
        rw [Finset.mul_sum]
        refine Finset.sum_congr rfl fun j _ => ?_
        rw [mul_assoc, Finset.sum_mul]
        congr 1
        refine Finset.sum_congr rfl fun i _ => ?_
        rw [mul_assoc]
        congr 1
        rw [inv_pow, mul_comm ((dftRoot n ^ (i * j))⁻¹) (dftRoot n ^ (j * k)),
          ← div_eq_mul_inv, div_pow, ← pow_mul, ← pow_mul, mul_comm j k]
    _ = (n : ℂ)⁻¹ * ∑ i ∈ Finset.range n, ∑ j ∈ Finset.range n,
          v i * (dftRoot n ^ k / dftRoot n ^ i) ^ j := by rw [Finset.sum_comm]
    _ = (n : ℂ)⁻¹ * ∑ i ∈ Finset.range n, v i * (if k = i then (n : ℂ) else 0) := by
        congr 1
        refine Finset.sum_congr rfl fun i hi => ?_
        rw [← Finset.mul_sum, geom_sum_dftRoot hn hk (Finset.mem_range.mp hi)]
    _ = v k := by
        simp only [mul_ite, mul_zero]
        rw [Finset.sum_ite_eq (Finset.range n) k fun i => v i * (n : ℂ)]
        rw [if_pos (Finset.mem_range.mpr hk), mul_comm (v k), inv_mul_cancel_left₀ hNC]

theorem mod_shift_cancel {n i j : ℕ} (hi : i < n) (hj : j < n) :
    (n + (i + j) % n - j) % n = i := by
  rcases Nat.lt_or_ge (i + j) n with h | h
  · rw [Nat.mod_eq_of_lt h]
    have e : n + (i + j) - j = n + i := by omega
    rw [e, Nat.add_mod_left, Nat.mod_eq_of_lt hi]
  · have e1 : (i + j) % n = i + j - n := by
      rw [Nat.mod_eq_sub_mod h, Nat.mod_eq_of_lt (by omega)]
    have e2 : n + (i + j - n) - j = i := by omega
    rw [e1, e2, Nat.mod_eq_of_lt hi]

theorem mod_shift_cancel_right {n b j : ℕ} (hb : b < n) (hj : j < n) :
    ((n + b - j) % n + j) % n = b := by
  rcases Nat.lt_or_ge b j with h | h
  · have e1 : (n + b - j) % n = n + b - j := Nat.mod_eq_of_lt (by omega)
    have e2 : n + b - j + j = n + b := by omega
    rw [e1, e2, Nat.add_mod_left, Nat.mod_eq_of_lt hb]
  · have e1 : (n + b - j) % n = b - j := by
      have e : n + b - j = n + (b - j) := by omega
      rw [e, Nat.add_mod_left, Nat.mod_eq_of_lt (by omega)]
    have e2 : b - j + j = b := by omega
    rw [e1, e2, Nat.mod_eq_of_lt hb]

theorem sum_shift_mod {n j : ℕ} (hn : n ≠ 0) (hj : j < n) (f : ℕ → ℂ) :
    ∑ i ∈ Finset.range n, f ((i + j) % n) = ∑ i ∈ Finset.range n, f i := by
  refine Finset.sum_nbij' (fun i => (i + j) % n) (fun i => (n + i - j) % n) ?_ ?_ ?_ ?_ ?_
  · exact fun a _ => Finset.mem_range.mpr (Nat.mod_lt _ (Nat.pos_of_ne_zero hn))
  · exact fun a _ => Finset.mem_range.mpr (Nat.mod_lt _ (Nat.pos_of_ne_zero hn))
  · exact fun a ha => mod_shift_cancel (Finset.mem_range.mp ha) hj
  · exact fun a ha => mod_shift_cancel_right (Finset.mem_range.mp ha) hj
  · exact fun a _ => rfl

theorem Forward_cconv {n : ℕ} (hn : n ≠ 0) (a b : ℕ → ℂ) (k : ℕ) :
    Forward n (cconv n a b) k = Forward n a k * Forward n b k := by
  simp only [Forward, cconv]
  calc ∑ i ∈ Finset.range n,
      (∑ j ∈ Finset.range n, a ((n + i - j) % n) * b j) * dftRoot n ^ (i * k)
      = ∑ i ∈ Finset.range n, ∑ j ∈ Finset.range n,
          a ((n + i - j) % n) * b j * dftRoot n ^ (i * k) :=
        Finset.sum_congr rfl fun i _ => Finset.sum_mul ..
    _ = ∑ j ∈ Finset.range n, ∑ i ∈ Finset.range n,
          a ((n + i - j) % n) * b j * dftRoot n ^ (i * k) := Finset.sum_comm
    _ = ∑ j ∈ Finset.range n, ∑ i ∈ Finset.range n,
          a i * b j * dftRoot n ^ ((i + j) * k) := by
        refine Finset.sum_congr rfl fun j hj => ?_
        have hjn := Finset.mem_range.mp hj
        refine ((sum_shift_mod hn hjn
          fun i => a ((n + i - j) % n) * b j * dftRoot n ^ (i * k)).symm).trans ?_
        refine Finset.sum_congr rfl fun i hi => ?_
        show a ((n + (i + j) % n - j) % n) * b j * dftRoot n ^ ((i + j) % n * k)
          = a i * b j * dftRoot n ^ ((i + j) * k)
        rw [mod_shift_cancel (Finset.mem_range.mp hi) hjn, dftRoot_pow_mod_mul hn]
    _ = ∑ j ∈ Finset.range n, ∑ i ∈ Finset.range n,
          (a i * dftRoot n ^ (i * k)) * (b j * dftRoot n ^ (j * k)) := by
        refine Finset.sum_congr rfl fun j _ => Finset.sum_congr rfl fun i _ => ?_
        rw [add_mul, pow_add]
        ring
    _ = (∑ i ∈ Finset.range n, a i * dftRoot n ^ (i * k)) *
          (∑ j ∈ Finset.range n, b j * dftRoot n ^ (j * k)) := by
        rw [Finset.mul_sum]
        refine Finset.sum_congr rfl fun j _ => ?_
        rw [Finset.sum_mul]

theorem Forward_congr {n : ℕ} (w w' : ℕ → ℂ) (h : ∀ k < n, w k = w' k) (i : ℕ) :
    Forward n w i = Forward n w' i := by
  simp only [Forward]
  exact Finset.sum_congr rfl fun j hj => by rw [h j (Finset.mem_range.mp hj)]

theorem Inverse_congr {n : ℕ} (w w' : ℕ → ℂ) (h : ∀ k < n, w k = w' k) (i : ℕ) :
    Inverse n w i = Inverse n w' i := by
  simp only [Inverse]
  congr 1
  exact Finset.sum_congr rfl fun j hj => by rw [h j (Finset.mem_range.mp hj)]

theorem circApply_eq_cconv {n : ℕ} (hn : n ≠ 0) (col v : ℕ → ℂ) {i : ℕ} (hi : i < n) :
    circApply n col v i = cconv n col v i := by
  simp only [circApply]
  rw [Inverse_congr (fun k => Forward n col k * Forward n v k)
    (Forward n (cconv n col v)) (fun k _ => (Forward_cconv hn col v k).symm) i]
  exact Inverse_Forward hn _ hi

theorem circInverseApply_circApply {n : ℕ} (hn : n ≠ 0) (col v : ℕ → ℂ)
    (hD : ∀ k < n, Forward n col k ≠ 0) {i : ℕ} (hi : i < n) :
    circInverseApply n col (circApply n col v) i = v i := by
  simp only [circInverseApply]
  have h : ∀ k < n, Forward n (circApply n col v) k / Forward n col k = Forward n v k := by
    intro k hk
    have hF : Forward n (circApply n col v) k = Forward n col k * Forward n v k :=
      Forward_Inverse hn _ hk
    rw [hF, mul_div_cancel_left₀ _ (hD k hk)]
  rw [Inverse_congr _ _ h i]
  exact Inverse_Forward hn v hi

theorem toeplitzApply_eq_direct {n : ℕ} (hn : 0 < n) (col row v : ℕ → ℂ) {i : ℕ}
    (hi : i < n) : toeplitzApply n col row v i = toeplitzDirect n col row v i := by
  have hm : 2 * n - 1 ≠ 0 := by omega
  have him : i < 2 * n - 1 := by omega
  have h1 : toeplitzApply n col row v i
      = cconv (2 * n - 1) (embedCol n col row) (padVec n v) i :=
    circApply_eq_cconv hm _ _ him
  rw [h1]
  simp only [cconv, toeplitzDirect]
  refine Eq.trans (Finset.sum_subset
    (Finset.range_subset.mpr (show n ≤ 2 * n - 1 by omega)) ?_).symm ?_
  · intro j _ hjn
    have hj : ¬ j < n := fun h => hjn (Finset.mem_range.mpr h)
    simp [padVec, hj]
  · refine Finset.sum_congr rfl fun j hj => ?_
    have hjn : j < n := Finset.mem_range.mp hj
    have hp : padVec n v j = v j := by simp [padVec, hjn]
    rw [hp]
    congr 1
    rcases le_or_lt j i with hji | hij
    · have e1 : (2 * n - 1 + i - j) % (2 * n - 1) = i - j := by
        have e : 2 * n - 1 + i - j = (2 * n - 1) + (i - j) := by omega
        rw [e, Nat.add_mod_left, Nat.mod_eq_of_lt (by omega)]
      rw [e1]
      simp only [embedCol, toeplitzEntry]
      rw [if_pos (show i - j < n by omega), if_pos hji]
    · have e1 : (2 * n - 1 + i - j) % (2 * n - 1) = 2 * n - 1 + i - j :=
        Nat.mod_eq_of_lt (by omega)
      rw [e1]
      simp only [embedCol, toeplitzEntry]
      rw [if_neg (show ¬ 2 * n - 1 + i - j < n by omega),
        if_pos (show 2 * n - 1 + i - j < 2 * n - 1 by omega),
        if_neg (show ¬ j ≤ i by omega)]
      congr 1
      omega

theorem Gamma_one (n k : ℕ) : Gamma n 1 k = 1 := by
  simp [Gamma, Real.one_rpow]

theorem Gamma_weight {n : ℕ} (hn : n ≠ 0) {alpha : ℝ} (ha : 0 < alpha) {i j : ℕ}
    (hi : i < n) (hj : j < n) :
    (Gamma n alpha i)⁻¹ * (Gamma n alpha ((n + i - j) % n) * Gamma n alpha j)
      = if j ≤ i then 1 else (alpha : ℂ) := by
  have hnR : (n : ℝ) ≠ 0 := Nat.cast_ne_zero.mpr hn
  simp only [Gamma]
  rw [← Complex.ofReal_inv, ← Complex.ofReal_mul, ← Complex.ofReal_mul]
  rcases le_or_lt j i with hji | hij
  · have e : (n + i - j) % n = i - j := by
      have e2 : n + i - j = n + (i - j) := by omega
      rw [e2, Nat.add_mod_left, Nat.mod_eq_of_lt (by omega)]
    rw [e, if_pos hji]
    have hr : (alpha ^ ((i : ℝ) / (n : ℝ)))⁻¹ *
        (alpha ^ (((i - j : ℕ) : ℝ) / (n : ℝ)) * alpha ^ ((j : ℝ) / (n : ℝ))) = 1 := by
      rw [← Real.rpow_neg ha.le, ← Real.rpow_add ha, ← Real.rpow_add ha]
      have hE : -((i : ℝ) / (n : ℝ)) +
          ((((i - j : ℕ)) : ℝ) / (n : ℝ) + (j : ℝ) / (n : ℝ)) = 0 := by
        rw [Nat.cast_sub hji]
        field_simp
      rw [hE, Real.rpow_zero]
    rw [hr, Complex.ofReal_one]
  · have e : (n + i - j) % n = n + i - j := Nat.mod_eq_of_lt (by omega)
    rw [e, if_neg (by omega)]
    have hr : (alpha ^ ((i : ℝ) / (n : ℝ)))⁻¹ *
        (alpha ^ (((n + i - j : ℕ) : ℝ) / (n : ℝ)) * alpha ^ ((j : ℝ) / (n : ℝ))) = alpha := by
      rw [← Real.rpow_neg ha.le, ← Real.rpow_add ha, ← Real.rpow_add ha]
      have hE : -((i : ℝ) / (n : ℝ)) +
          ((((n + i - j : ℕ)) : ℝ) / (n : ℝ) + (j : ℝ) / (n : ℝ)) = 1 := by
        rw [Nat.cast_sub (show j ≤ n + i by omega), Nat.cast_add]
        field_simp
        ring
      rw [hE, Real.rpow_one]
    rw [hr]

theorem alphaCircApply_eq_matrix {n : ℕ} (hn : n ≠ 0) {alpha : ℝ} (ha : 0 < alpha)
    (col v : ℕ → ℂ) {i : ℕ} (hi : i < n) :
    alphaCircApply n alpha col v i
      = ∑ j ∈ Finset.range n,
          (if j ≤ i then col (i - j) else (alpha : ℂ) * col (n + i - j)) * v j := by
  simp only [alphaCircApply, alphaEigs]
  have h1 : Inverse n (fun k => Forward n (fun j => Gamma n alpha j * col j) k *
      Forward n (fun j => Gamma n alpha j * v j) k) i
      = cconv n (fun j => Gamma n alpha j * col j) (fun j => Gamma n alpha j * v j) i :=
    circApply_eq_cconv hn _ _ hi
  rw [h1]
  simp only [cconv]
  rw [Finset.mul_sum]
  refine Finset.sum_congr rfl fun j hj => ?_
  have hjn := Finset.mem_range.mp hj
  have e : (Gamma n alpha i)⁻¹ * (Gamma n alpha ((n + i - j) % n) * col ((n + i - j) % n) *
      (Gamma n alpha j * v j))
      = ((Gamma n alpha i)⁻¹ * (Gamma n alpha ((n + i - j) % n) * Gamma n alpha j)) *
        (col ((n + i - j) % n) * v j) := by ring
  rw [e, Gamma_weight hn ha hi hjn]
  rcases le_or_lt j i with hji | hij
  · have ec : (n + i - j) % n = i - j := by
      have e2 : n + i - j = n + (i - j) := by omega
      rw [e2, Nat.add_mod_left, Nat.mod_eq_of_lt (by omega)]
    rw [if_pos hji, if_pos hji, ec, one_mul]
  · have ec : (n + i - j) % n = n + i - j := Nat.mod_eq_of_lt (by omega)
    rw [if_neg (by omega), if_neg (by omega), ec]
    ring

theorem alphaCircApply_one {n : ℕ} (col v : ℕ → ℂ) (i : ℕ) :
    alphaCircApply n 1 col v i = circApply n col v i := by
  simp only [alphaCircApply, alphaEigs, circApply, Gamma_one, one_mul, inv_one]

theorem alphaCircInverseApply_one {n : ℕ} (col v : ℕ → ℂ) (i : ℕ) :
    alphaCircInverseApply n 1 col v i = circInverseApply n col v i := by
  simp only [alphaCircInverseApply, alphaEigs, circInverseApply, Gamma_one, one_mul, inv_one]

/-- C2: for every pair of complex vectors `col, row` of equal length `n` with
`col 0 = row 0` and every complex vector `v` of length `n`, the Toeplitz
apply (circulant embedding of size `2n-1` evaluated through the
forward/inverse transform pair) returns exactly the matrix-vector product of
the Toeplitz matrix with entries `col (i-j)` for `i ≥ j` and `row (j-i)`
otherwise; the spec's 1e-10 relative-error agreement becomes exact equality
in exact arithmetic. -/
theorem claim_C2_toeplitz_matches_direct {n : ℕ} (hn : 0 < n) (col row v : ℕ → ℂ)
    (hdiag : col 0 = row 0) {i : ℕ} (hi : i < n) :
    toeplitzApply n col row v i = toeplitzDirect n col row v i :=
  toeplitzApply_eq_direct hn col row v hi

/-- Witness for C2: `n = 1`, `col = row = v = 1`, entry `0`. -/
theorem claim_C2_witness :
    toeplitzApply 1 (fun _ => 1) (fun _ => 1) (fun _ => 1) 0
      = toeplitzDirect 1 (fun _ => 1) (fun _ => 1) (fun _ => 1) 0 :=
  claim_C2_toeplitz_matches_direct (by norm_num) _ _ _ rfl (by norm_num)

/-- C3: the circulant apply `Inverse (D ⊙ Forward v)` with cached eigenvalues
`D = Forward col` equals the circulant matrix-vector product with entries
`col ((i-j) mod n)` (realized as `col ((n+i-j) % n)` for `i, j < n`). -/
theorem claim_C3_circulant_matches_matrix {n : ℕ} (hn : 0 < n) (col v : ℕ → ℂ)
    {i : ℕ} (hi : i < n) : circApply n col v i = cconv n col v i :=
  circApply_eq_cconv (Nat.pos_iff_ne_zero.mp hn) col v hi

/-- Witness for C3: `n = 1`, `col = v = 1`, entry `0`. -/
theorem claim_C3_witness :
    circApply 1 (fun _ => 1) (fun _ => 1) 0 = cconv 1 (fun _ => 1) (fun _ => 1) 0 :=
  claim_C3_circulant_matches_matrix (by norm_num) _ _ (by norm_num)

/-- C4: when the forward transform of `col` has no zero entry, the circulant
preconditioner step is a left inverse of the circulant apply:
`inverse_apply (apply v) = v`; the spec's 1e-12 relative-error agreement
becomes exact equality in exact arithmetic. -/
theorem claim_C4_roundtrip {n : ℕ} (hn : 0 < n) (col v : ℕ → ℂ)
    (hD : ∀ k < n, Forward n col k ≠ 0) {i : ℕ} (hi : i < n) :
    circInverseApply n col (circApply n col v) i = v i :=
  circInverseApply_circApply (Nat.pos_iff_ne_zero.mp hn) col v hD hi

/-- Witness for C4: `n = 1`, `col = v = 1`, entry `0`; the single eigenvalue
is `1 ≠ 0`. -/
theorem claim_C4_witness :
    circInverseApply 1 (fun _ => 1) (circApply 1 (fun _ => 1) (fun _ => 1)) 0
      = (fun _ => (1 : ℂ)) 0 :=
  claim_C4_roundtrip (by norm_num) _ _
    (by
      intro k hk
      simp [Forward])
    (by norm_num)

/-- C5: the alpha-circulant operator constructed with `alpha = 1` produces
the same `apply` and `inverse_apply` results as the circulant operator built
from the same `col`, because the scaling sequence `Gamma` is then
identically `1`; the spec's 1e-12 tolerance becomes exact equality. -/
theorem claim_C5_alpha_one_reduces {n : ℕ} (col v : ℕ → ℂ) (i : ℕ) :
    alphaCircApply n 1 col v i = circApply n col v i ∧
    alphaCircInverseApply n 1 col v i = circInverseApply n col v i :=
  ⟨alphaCircApply_one col v i, alphaCircInverseApply_one col v i⟩

/-- C6: the alpha-circulant operator caches `D = Forward (Gamma ⊙ col)` with
`Gamma k = alpha^(k/n)` for `k = 0..n-1`, its apply is
`Gamma⁻¹ ⊙ Inverse (D ⊙ Forward (Gamma ⊙ v))`, its inverse-apply is the same
pipeline with division by `D`, and — the consequence of using the same
`Gamma` exponent convention in the eigenvalue step and the apply step —
the apply equals the alpha-circulant matrix-vector product, whose wrap-around
entries are damped by `alpha`. -/
theorem claim_C6_alpha_pipeline {n : ℕ} (hn : 0 < n) {alpha : ℝ} (h0 : 0 < alpha)
    (h1 : alpha ≤ 1) (col v : ℕ → ℂ) {i : ℕ} (hi : i < n) :
    alphaEigs n alpha col = Forward n (fun j => Gamma n alpha j * col j) ∧
    alphaCircApply n alpha col v i = (Gamma n alpha i)⁻¹ *
      Inverse n (fun k => alphaEigs n alpha col k *
        Forward n (fun j => Gamma n alpha j * v j) k) i ∧
    alphaCircInverseApply n alpha col v i = (Gamma n alpha i)⁻¹ *
      Inverse n (fun k => Forward n (fun j => Gamma n alpha j * v j) k /
        alphaEigs n alpha col k) i ∧
    alphaCircApply n alpha col v i = ∑ j ∈ Finset.range n,
      (if j ≤ i then col (i - j) else (alpha : ℂ) * col (n + i - j)) * v j :=
  ⟨rfl, rfl, rfl, alphaCircApply_eq_matrix (Nat.pos_iff_ne_zero.mp hn) h0 col v hi⟩

/-- Witness for C6: `n = 1`, `alpha = 1/2`, `col = v = 1`, entry `0`. -/
theorem claim_C6_witness :
    alphaCircApply 1 (1/2) (fun _ => 1) (fun _ => 1) 0 = ∑ j ∈ Finset.range 1,
      (if j ≤ 0 then (fun _ => (1 : ℂ)) (0 - j)
        else ((1/2 : ℝ) : ℂ) * (fun _ => (1 : ℂ)) (1 + 0 - j)) * (fun _ => (1 : ℂ)) j :=
  (claim_C6_alpha_pipeline (by norm_num) (by norm_num) (by norm_num)
    (fun _ => 1) (fun _ => 1) (by norm_num)).2.2.2

/-- C7: construction fails with `ConstructionError` — and no operator object
is created — whenever the Toeplitz descriptor has `col 0 ≠ row 0` or unequal
lengths, or the alpha-circulant operator is given `alpha` outside `(0, 1]`;
on valid inputs the Toeplitz construction yields a square shape `(n, n)`
(the element type is fixed to ℂ by the model). -/
theorem claim_C7_construction_validation (col row : List ℂ) (alpha : ℝ) :
    (col.length ≠ row.length ∨ col.headD 0 ≠ row.headD 0 →
      mkToeplitz col row = .error .constructionError) ∧
    (∀ T, mkToeplitz col row = .ok T → T.shape = (col.length, col.length)) ∧
    (¬ (0 < alpha ∧ alpha ≤ 1) →
      mkAlphaCirculant col alpha = .error .constructionError) := by
  refine ⟨?_, ?_, ?_⟩
  · intro h
    rw [mkToeplitz, if_neg]
    tauto
  · intro T hT
    rw [mkToeplitz] at hT
    by_cases h : col.length = row.length ∧ col.headD 0 = row.headD 0
    · rw [if_pos h] at hT
      injection hT with h2
      subst h2
      simp [ToeplitzLinearOperator.shape, ← h.1]
    · rw [if_neg h] at hT
      cases hT
  · intro h
    rw [mkAlphaCirculant, if_neg h]

/-- Witness for C7: mismatched diagonal entries `1 ≠ 2`, and `alpha = 2`
outside `(0, 1]`. -/
theorem claim_C7_witness :
    mkToeplitz [(1 : ℂ)] [(2 : ℂ)] = .error .constructionError ∧
    mkAlphaCirculant [(1 : ℂ)] 2 = .error .constructionError :=
  ⟨(claim_C7_construction_validation [(1 : ℂ)] [(2 : ℂ)] 2).1
      (Or.inr (by norm_num [List.headD])),
   (claim_C7_construction_validation [(1 : ℂ)] [(2 : ℂ)] 2).2.2 (by norm_num)⟩

/-- C8: the Toeplitz apply entry point fails with `DimensionMismatch`
exactly when the operand length disagrees with the declared size, and
succeeds (returning a product vector) exactly otherwise — the failure is
the immediate result, never retried or replaced by a fallback value. -/
theorem claim_C8_dimension_mismatch (T : ToeplitzLinearOperator) (v : List ℂ) :
    (T.matvec v = .error .dimensionMismatch ↔ v.length ≠ T.col.length) ∧
    ((∃ w, T.matvec v = .ok w) ↔ v.length = T.col.length) := by
  rw [ToeplitzLinearOperator.matvec]
  by_cases h : v.length = T.col.length
  · rw [if_pos h]
    constructor
    · constructor
      · intro hE
        cases hE
      · intro hne
        exact absurd h hne
    · constructor
      · intro _
        exact h
      · intro _
        exact ⟨_, rfl⟩
  · rw [if_neg h]
    constructor
    · constructor
      · intro _
        exact h
      · intro _
        rfl
    · constructor
      · rintro ⟨w, hw⟩
        cases hw
      · intro hh
        exact absurd hh h

/-- C9: when the cached eigenvalue vector of a circulant descriptor contains
a zero entry (for example the all-zero `col`), the preconditioner step
signals `SingularPreconditioner` instead of returning any result vector. -/
theorem claim_C9_singular_preconditioner (C : CirculantLinearOperator) (v : List ℂ)
    (hv : v.length = C.col.length) (hsing : ∃ k < C.col.length, C.eigs k = 0) :
    C.inverseApply v = .error .singularPreconditioner := by
  rw [CirculantLinearOperator.inverseApply, if_neg (fun h => h hv), if_pos hsing]

/-- Witness for C9: the all-zero column of length 2, whose forward transform
vanishes everywhere. -/
theorem claim_C9_witness :
    CirculantLinearOperator.inverseApply ⟨[0, 0]⟩ [1, 1]
      = .error .singularPreconditioner :=
  claim_C9_singular_preconditioner ⟨[0, 0]⟩ [1, 1] rfl
    ⟨0, by norm_num, by simp [CirculantLinearOperator.eigs, Forward, Finset.sum_range_succ]⟩

/-- C10: the solver progress callback increments the global iteration counter
by exactly one per invocation and never resets it: after `k` invocations the
counter reads `start + k`, which equals the number `k` of invocations of that
solve exactly when the driver reset the counter to `0` beforehand; without
the reset, counts accumulate across successive solves. -/
theorem claim_C10_global_counter (m k k1 k2 : ℕ) :
    gmres_callback m = m + 1 ∧
    gmres_callback^[k] m = m + k ∧
    (gmres_callback^[k] m = k ↔ m = 0) ∧
    gmres_callback^[k2] (gmres_callback^[k1] 0) = k1 + k2 := by
  have hit : ∀ a b : ℕ, gmres_callback^[b] a = a + b := by
    intro a b
    induction b with
    | zero => simp
    | succ b ih => rw [Function.iterate_succ_apply', ih]; rfl
  refine ⟨rfl, hit m k, ?_, ?_⟩
  · rw [hit m k]
    omega
  · rw [hit 0 k1, hit _ k2]
    omega

end ParaDiag

end
